import Mathlib

/-!
# Verification of the szstd seekable-compression core

Shallow embedding of the Go repository `opengs/szstd`:

* `seektable/table.go` — the in-memory seek table (`Table`), its cached
  cumulative offsets (`CacheOffsets`), the dual linear/binary lookup
  (`Find`), and the binary serializer/deserializer
  (`WriteTableToWriter` / `ReadTableFromReadSeeker`);
* `writer.go` — the frame-splitting writer (`Write`, `Close`);
* `reader.go` — the seekable reader (`NewReadSeeker`, `Seek`).

Modelling conventions:

* Go's `Table` stores entries as a `[]byte` with one 8-byte little-endian
  record per entry.  The model represents that array as the decoded
  `List TableEntry`; a record's two `uint32` fields are `Nat`s that are
  `< 2^32` for every byte-representable table (`EntryValid`).  `SetEntry`
  (hence `AppendEntry`) truncates its argument exactly as
  `binary.LittleEndian.PutUint32` does.
* Every explicit Go narrowing conversion `uint32(x)` is modelled as
  `x % 2^32`, and `uint32` arithmetic (as in the deserializer's size
  computations) is reduced `% 2^32`.  The `uint64` cumulative-offset
  accumulators of `CacheOffsets` are modelled on `Nat`.
* Byte streams are `List Nat` (each element a byte value).  Seeks and
  `io.ReadFull` turn into explicit bounds checks; an out-of-range slice
  index (a Go runtime panic) is modelled as a distinguished error/`none`
  result.
* The zstd codec is an external collaborator: an opaque parameter
  `enc : List Nat → List Nat`.  The data sink is an oracle
  `Nat → Option Nat` giving, for the k-th sink `Write` call, `none` for
  full success or `some w` for failure after `w` accepted bytes.
-/

namespace Szstd

/-- One seek-table record: `(CompressedSize, DecompressedSize)`, both
`uint32` in Go (`seektable/table.go`, `TableEntry`). -/
structure TableEntry where
  CompressedSize : Nat
  DecompressedSize : Nat
deriving DecidableEq

/-- Lookup result of `Find` (`seektable/table.go`, `TableOffset`). -/
structure TableOffset where
  EntryIndex : Nat
  EntryOffsetInCompressed : Nat
  EntryOffsetInDecompressed : Nat
deriving DecidableEq

/-- A `Table`'s entry array, with the 8-byte records decoded.  Go's
`Table.entries []byte` holds exactly `NumEntries` such records. -/
abbrev Table := List TableEntry

/-- Both fields of a byte-representable record fit in a `uint32`. -/
def EntryValid (e : TableEntry) : Prop :=
  e.CompressedSize < 2 ^ 32 ∧ e.DecompressedSize < 2 ^ 32

/-- All records of a byte-representable table fit in `uint32` fields. -/
def TableValid (t : Table) : Prop := ∀ e ∈ t, EntryValid e

/-- `Table.NumEntries`: `len(t.entries) / 8`. -/
def NumEntries (t : Table) : Nat := t.length

/-- `Table.GetEntry(index)`: decode the record at `index`.  Go panics on an
out-of-range index; all in-model call sites are in range, and the default
record stands in for the unreachable out-of-range case. -/
def GetEntry (t : Table) (index : Nat) : TableEntry := t.getD index ⟨0, 0⟩

/-- `Table.SetEntry(index, entry)`: store the record at `index`.
`binary.LittleEndian.PutUint32` keeps only the low 32 bits of each field. -/
def SetEntry (t : Table) (index : Nat) (e : TableEntry) : Table :=
  t.set index ⟨e.CompressedSize % 2 ^ 32, e.DecompressedSize % 2 ^ 32⟩

/-- `Table.AppendEntry(entry)`: extend the entry array by one zeroed
record, then `SetEntry` the last index. -/
def AppendEntry (t : Table) (e : TableEntry) : Table :=
  SetEntry (t ++ [⟨0, 0⟩]) (NumEntries (t ++ [⟨0, 0⟩]) - 1) e

/-- `Table.Size()`: `len(t.entries) + 8 + 9` (entry bytes + header + footer). -/
def TableSize (t : Table) : Nat := 8 * t.length + 8 + 9

/-- Sum of the `CompressedSize` fields of a list of records. -/
def csizeSum : List TableEntry → Nat
  | [] => 0
  | e :: rest => e.CompressedSize + csizeSum rest

/-- Sum of the `DecompressedSize` fields of a list of records. -/
def dsizeSum : List TableEntry → Nat
  | [] => 0
  | e :: rest => e.DecompressedSize + dsizeSum rest

/-- The cached offset record for index `i`: cumulative compressed and
decompressed sizes of all strictly preceding entries. -/
def tableOffsetAt (t : Table) (i : Nat) : TableOffset :=
  ⟨i, csizeSum (t.take i), dsizeSum (t.take i)⟩

/-- Accumulating loop of `Table.CacheOffsets`: builds the offset records
for indices `i, i+1, ...` starting from running totals `c` and `d`. -/
def cacheOffsetsFrom (i c d : Nat) : List TableEntry → List TableOffset
  | [] => []
  | e :: rest =>
    ⟨i, c, d⟩ :: cacheOffsetsFrom (i + 1) (c + e.CompressedSize) (d + e.DecompressedSize) rest

/-- `Table.CacheOffsets`: the memoized `cachedOffsets` slice, one record
per entry, computed by a single forward scan with `uint64` running totals
(modelled on `Nat`). -/
def CacheOffsets (t : Table) : List TableOffset := cacheOffsetsFrom 0 0 0 t

/-- `Table.OffsetsByIndex(index)`: the cached offset record at `index`
(Go panics when `index` is out of range; the reader's only call site is
guarded by the claims below). -/
def OffsetsByIndex (t : Table) (index : Nat) : TableOffset :=
  (CacheOffsets t).getD index ⟨0, 0, 0⟩

/-- Linear-scan arm of `Table.Find`: walk `cachedOffsets` in order and
return the first record whose decompressed range contains `offset`. -/
def findLinearScan (t : Table) (offset : Nat) : List TableOffset → TableOffset × Bool
  | [] => (⟨0, 0, 0⟩, false)
  | tOff :: rest =>
    if tOff.EntryOffsetInDecompressed ≤ offset ∧
        offset < tOff.EntryOffsetInDecompressed + (GetEntry t tOff.EntryIndex).DecompressedSize then
      (tOff, true)
    else
      findLinearScan t offset rest

/-- Binary-search arm of `Table.Find`: Go `int` bounds `low`/`high`
(`Int` here), `mid := (low + high) / 2`, narrowing on the midpoint's
cumulative decompressed offset. -/
def findBinarySearch (t : Table) (offs : List TableOffset) (offset : Nat) (low high : Int) :
    TableOffset × Bool :=
  if hlh : low ≤ high then
    let mid := (low + high) / 2
    let tOff := offs.getD mid.toNat ⟨0, 0, 0⟩
    let entry := GetEntry t tOff.EntryIndex
    if tOff.EntryOffsetInDecompressed ≤ offset ∧
        offset < tOff.EntryOffsetInDecompressed + entry.DecompressedSize then
      (tOff, true)
    else if offset < tOff.EntryOffsetInDecompressed then
      findBinarySearch t offs offset low (mid - 1)
    else
      findBinarySearch t offs offset (mid + 1) high
  else
    (⟨0, 0, 0⟩, false)
termination_by (high + 1 - low).toNat
decreasing_by all_goals omega

/-- `Table.Find(offset)` restricted to its linear arm, over the full
cached-offset slice. -/
def FindLinear (t : Table) (offset : Nat) : TableOffset × Bool :=
  findLinearScan t offset (CacheOffsets t)

/-- `Table.Find(offset)` restricted to its binary arm, over the full
cached-offset slice. -/
def FindBinary (t : Table) (offset : Nat) : TableOffset × Bool :=
  findBinarySearch t (CacheOffsets t) offset 0 ((CacheOffsets t).length - 1 : Int)

/-- `Table.Find(offset)`: linear scan below 32 cached offsets, binary
search otherwise (`seektable/table.go`, lines 60-88). -/
def Find (t : Table) (offset : Nat) : TableOffset × Bool :=
  if (CacheOffsets t).length < 32 then FindLinear t offset else FindBinary t offset

/-- Header magic constant `0x184D2A5E`. -/
def headerMagicNumber : Nat := 0x184D2A5E

/-- Footer magic constant `0x8F92EAB1`. -/
def footerMagicNumber : Nat := 0x8F92EAB1

/-- `binary.LittleEndian.PutUint32`: the four little-endian bytes of the
low 32 bits of `v`. -/
def u32le (v : Nat) : List Nat :=
  [v % 256, v / 256 % 256, v / 65536 % 256, v / 16777216 % 256]

/-- `binary.LittleEndian.Uint32` on four byte values. -/
def le32v (b0 b1 b2 b3 : Nat) : Nat :=
  b0 + 256 * b1 + 65536 * b2 + 16777216 * b3

/-- Byte at index `i` of a stream (0 when out of range; every in-model
read is bounds-checked separately where Go would fail or panic). -/
def byteAt (l : List Nat) (i : Nat) : Nat := l.getD i 0

/-- `binary.LittleEndian.Uint32(l[i : i+4])`. -/
def le32at (l : List Nat) (i : Nat) : Nat :=
  le32v (byteAt l i) (byteAt l (i + 1)) (byteAt l (i + 2)) (byteAt l (i + 3))

/-- The 8 bytes of one serialized record. -/
def entryBytes (e : TableEntry) : List Nat :=
  u32le e.CompressedSize ++ u32le e.DecompressedSize

/-- The serialized entry region of a table (Go's `t.entries` byte array). -/
def entriesBytes : List TableEntry → List Nat
  | [] => []
  | e :: rest => entryBytes e ++ entriesBytes rest

/-- `WriteTableToWriter` on an always-succeeding sink: the full byte
sequence it emits — 8-byte header (magic, `declaredSize =
len(entries)+9`), raw entry bytes, 9-byte footer (entry count, zero
descriptor, magic). -/
def WriteTableToWriter (t : Table) : List Nat :=
  (u32le headerMagicNumber ++ u32le (8 * t.length + 9)) ++
    entriesBytes t ++
    (u32le t.length ++ [0] ++ u32le footerMagicNumber)

/-- The `int64` byte count returned by a fully successful
`WriteTableToWriter`: header + entry + footer write results. -/
def writeTableReturn (t : Table) : Nat := 8 + (entriesBytes t).length + 9

/-- Failure cases of `ReadTableFromReadSeeker`.  `indexPanic` marks the
Go runtime panic of indexing `entriesData[0..3]` beyond its length. -/
inductive TableReadError
  | seekFooter
  | badFooterMagic
  | seekStart
  | readHeader
  | badHeaderMagic
  | sizeMismatch
  | readEntries
  | emptyChunk
  | indexPanic
deriving DecidableEq

/-- `io.ReadFull` of `len` bytes at position `pos`: fails when the stream
is too short. -/
def byteRegion (bytes : List Nat) (pos len : Nat) : Option (List Nat) :=
  if pos + len ≤ bytes.length then some ((bytes.drop pos).take len) else none

/-- The deserializer's per-entry emptiness test as written in Go: the loop
body always inspects `entriesData[0] .. entriesData[3]` (the first
record's compressed-size bytes) with short-circuit `&&`, for every
iteration; a missing index is a runtime panic. -/
def emptyChunkCheck : List Nat → Except TableReadError Unit
  | [] => .error .indexPanic
  | b0 :: d0 =>
    if b0 ≠ 0 then .ok () else
    match d0 with
    | [] => .error .indexPanic
    | b1 :: d1 =>
      if b1 ≠ 0 then .ok () else
      match d1 with
      | [] => .error .indexPanic
      | b2 :: d2 =>
        if b2 ≠ 0 then .ok () else
        match d2 with
        | [] => .error .indexPanic
        | b3 :: _ => if b3 ≠ 0 then .ok () else .error .emptyChunk

/-- Decode the entry region into records, one per full 8-byte group
(`NumEntries` floors, so a ragged tail is ignored exactly as in Go). -/
def bytesToEntries : List Nat → List TableEntry
  | b0 :: b1 :: b2 :: b3 :: b4 :: b5 :: b6 :: b7 :: rest =>
    ⟨le32v b0 b1 b2 b3, le32v b4 b5 b6 b7⟩ :: bytesToEntries rest
  | _ => []

/-- `ReadTableFromReadSeeker` over a byte stream: read and validate the
9-byte footer, seek back `8 + numEntries*8 + 9` bytes (`uint32`
arithmetic), validate the header magic and declared size, read the entry
region, run the (buggy) emptiness check, and wrap the entry bytes. -/
def ReadTableFromReadSeeker (bytes : List Nat) : Except TableReadError Table :=
  if bytes.length < 9 then .error .seekFooter
  else
    let footer := (bytes.drop (bytes.length - 9)).take 9
    let numEntries := le32at footer 0
    if le32at footer 5 ≠ footerMagicNumber then .error .badFooterMagic
    else
      let seekTableSize := (8 + numEntries * 8 + 9) % 2 ^ 32
      if bytes.length < seekTableSize then .error .seekStart
      else
        let pos := bytes.length - seekTableSize
        match byteRegion bytes pos 8 with
        | none => .error .readHeader
        | some header =>
          if le32at header 0 ≠ headerMagicNumber then .error .badHeaderMagic
          else if le32at header 4 ≠ (numEntries * 8 + 9) % 2 ^ 32 then .error .sizeMismatch
          else
            let entriesLen := numEntries * 8 % 2 ^ 32
            match byteRegion bytes (pos + 8) entriesLen with
            | none => .error .readEntries
            | some entriesData =>
              if 0 < numEntries then
                match emptyChunkCheck entriesData with
                | .error e => .error e
                | .ok _ => .ok (bytesToEntries entriesData)
              else .ok (bytesToEntries entriesData)

/-- Mutable state of the frame-splitting writer (`writer.go`):
the accumulation buffer, the growing seek table, and the number of sink
`Write` calls made so far (the index into the sink oracle). -/
structure WriterState where
  frameBuffer : List Nat
  seekTable : Table
  sinkCalls : Nat
deriving DecidableEq

/-- The freshly constructed writer of `NewWriter`. -/
def initialWriter : WriterState := ⟨[], [], 0⟩

/-- `writer.Write(data)`, parametrized by the codec `enc` and the sink
oracle (`none` = the k-th sink call accepts everything, `some w` = it
fails after `w` bytes).  Result: `some (n, err, state)` mirroring Go's
`(n, err)` return plus the writer state; `none` marks the two inputs on
which the Go loop cannot terminate normally — `frameSize = 0` (the fast
path consumes nothing and loops forever) and an over-full buffer (a
negative `spaceLeft` makes `data[:toWrite]` panic) — both unreachable
from `initialWriter` with `frameSize ≥ 1`. -/
def Write (enc : List Nat → List Nat) (oracle : Nat → Option Nat) (frameSize : Nat)
    (s : WriterState) (data : List Nat) (n : Nat) : Option (Nat × Bool × WriterState) :=
  if hd : data = [] then some (n, false, s)
  else if hF : frameSize = 0 then none
  else if hfast : s.frameBuffer = [] ∧ frameSize ≤ data.length then
    -- fast path: encode a full frame straight from `data`
    let toEncode := data.take frameSize
    let rest := data.drop frameSize
    let encoderBuffer := enc toEncode
    match oracle s.sinkCalls with
    | some written =>
      some (n + written, true, { s with sinkCalls := s.sinkCalls + 1 })
    | none =>
      Write enc oracle frameSize
        { frameBuffer := s.frameBuffer,
          seekTable := AppendEntry s.seekTable
            ⟨encoderBuffer.length % 2 ^ 32, toEncode.length % 2 ^ 32⟩,
          sinkCalls := s.sinkCalls + 1 }
        rest (n + encoderBuffer.length)
  else if hover : frameSize < s.frameBuffer.length then none
  else
    -- fill the frame buffer, flush when it reaches exactly `frameSize`
    let spaceLeft := frameSize - s.frameBuffer.length
    let toWrite := min data.length spaceLeft
    let buffer := s.frameBuffer ++ data.take toWrite
    let rest := data.drop toWrite
    let n2 := n + toWrite
    if hfull : buffer.length = frameSize then
      let encoderBuffer := enc buffer
      match oracle s.sinkCalls with
      | some written =>
        some (n2 - toWrite + written, true,
          { s with frameBuffer := buffer, sinkCalls := s.sinkCalls + 1 })
      | none =>
        Write enc oracle frameSize
          { frameBuffer := [],
            seekTable := AppendEntry s.seekTable
              ⟨encoderBuffer.length % 2 ^ 32, buffer.length % 2 ^ 32⟩,
            sinkCalls := s.sinkCalls + 1 }
          rest n2
    else
      Write enc oracle frameSize { s with frameBuffer := buffer } rest n2
termination_by 2 * data.length + min s.frameBuffer.length 1
decreasing_by
  all_goals unfold_let
  all_goals have hdlen : 0 < data.length := List.length_pos.mpr hd
  all_goals have h3 : 0 < frameSize := Nat.pos_of_ne_zero hF
  all_goals
    first
    | (obtain ⟨hb, hlen⟩ := hfast
       simp only [List.length_drop]
       omega)
    | (have hblen : s.frameBuffer.length ≤ frameSize := Nat.le_of_not_lt hover
       have hA : 0 < min data.length (frameSize - s.frameBuffer.length) ∨
           0 < s.frameBuffer.length := by
         by_cases hb : s.frameBuffer = []
         · left
           have hsmall : data.length < frameSize := by
             rcases Nat.lt_or_ge data.length frameSize with h | h
             · exact h
             · exact absurd ⟨hb, h⟩ hfast
           simp only [hb, List.length_nil, Nat.sub_zero]
           omega
         · right
           exact List.length_pos.mpr hb
       unfold_let spaceLeft toWrite buffer at hfull
       simp only [List.length_drop, List.length_append, List.length_take,
         List.length_nil] at hfull ⊢
       try clear encoderBuffer
       clear n2 rest buffer toWrite spaceLeft
       omega)

/-- One run of successive `Write` calls from a given state, stopping at
the first reported error. -/
def WriteAll (enc : List Nat → List Nat) (oracle : Nat → Option Nat) (frameSize : Nat) :
    WriterState → List (List Nat) → Option (Bool × WriterState)
  | s, [] => some (false, s)
  | s, d :: rest =>
    match Write enc oracle frameSize s d 0 with
    | none => none
    | some (_, true, s2) => some (true, s2)
    | some (_, false, s2) => WriteAll enc oracle frameSize s2 rest

/-- `writer.Close()` (first call): flush the remaining buffer as a final
undersized frame, then emit the seek table with three sink writes
(header, entries, footer). -/
def Close (enc : List Nat → List Nat) (oracle : Nat → Option Nat) (s : WriterState) :
    Bool × WriterState :=
  let flushed :=
    if s.frameBuffer = [] then some s
    else
      let encoderBuffer := enc s.frameBuffer
      match oracle s.sinkCalls with
      | some _ => none
      | none =>
        some { frameBuffer := [],
               seekTable := AppendEntry s.seekTable
                 ⟨encoderBuffer.length % 2 ^ 32, s.frameBuffer.length % 2 ^ 32⟩,
               sinkCalls := s.sinkCalls + 1 }
  match flushed with
  | none => (true, { s with sinkCalls := s.sinkCalls + 1 })
  | some s2 =>
    match oracle s2.sinkCalls with
    | some _ => (true, { s2 with sinkCalls := s2.sinkCalls + 1 })
    | none =>
      match oracle (s2.sinkCalls + 1) with
      | some _ => (true, { s2 with sinkCalls := s2.sinkCalls + 2 })
      | none =>
        match oracle (s2.sinkCalls + 2) with
        | some _ => (true, { s2 with sinkCalls := s2.sinkCalls + 3 })
        | none => (false, { s2 with sinkCalls := s2.sinkCalls + 3 })

/-- The always-succeeding sink oracle. -/
def okSink : Nat → Option Nat := fun _ => none

/-- State of the seekable reader (`reader.go`); the decoded-frame and
compressed-data buffers are codec-owned data and are not part of the
seek model. -/
structure ReaderState where
  seekTable : Table
  offset : Nat
  totalCompressedDataSize : Nat
  totalUncompressedDataSize : Nat
  currentFrameIndex : Int
  currentFrameLoaded : Bool
  currentFrameReaded : Nat
deriving DecidableEq

/-- Errors of `reader.Seek`.  The range check and the `Find` fallback
produce the same Go error message ("offset beyond end of data"), so both
map to `beyondEnd`. -/
inductive SeekError
  | negativeOffset
  | beyondEnd
  | invalidWhence
deriving DecidableEq

/-- `reader.Seek(offset, whence)` (`reader.go`, lines 119-164): resolve
`whence` (0 = start, 1 = current, 2 = end) to an absolute decompressed
target, reject negative and beyond-end targets, resolve the target frame
via `Find`, and update the in-frame read cursor. -/
def Seek (r : ReaderState) (offset : Int) (whence : Nat) : Except SeekError (Int × ReaderState) :=
  match whence with
  | 0 =>
    if offset < 0 then .error .negativeOffset
    else seekTo r offset.toNat
  | 1 =>
    if offset = 0 then .ok ((r.offset : Int), r)
    else if offset < 0 ∧ (r.offset : Int) + offset < 0 then .error .negativeOffset
    else seekTo r ((r.offset : Int) + offset).toNat
  | 2 =>
    if offset < 0 ∧ (r.totalUncompressedDataSize : Int) + offset < 0 then
      .error .negativeOffset
    else seekTo r ((r.totalUncompressedDataSize : Int) + offset).toNat
  | _ => .error .invalidWhence
where
  /-- Shared tail of `Seek` after `newOffset` is resolved. -/
  seekTo (r : ReaderState) (newOffset : Nat) : Except SeekError (Int × ReaderState) :=
    if r.totalUncompressedDataSize < newOffset then .error .beyondEnd
    else
      match Find r.seekTable newOffset with
      | (_, false) => .error .beyondEnd
      | (tOff, true) =>
        let r1 :=
          if (tOff.EntryIndex : Int) ≠ r.currentFrameIndex then
            { r with currentFrameIndex := (tOff.EntryIndex : Int), currentFrameLoaded := false }
          else r
        .ok ((newOffset : Int),
          { r1 with
            currentFrameReaded := newOffset - tOff.EntryOffsetInDecompressed,
            offset := newOffset })

/-- Construction failures of `NewReadSeeker`.  `panicIndex` marks the Go
runtime panic of `OffsetsByIndex(-1)` / `GetEntry(-1)` on an empty
table. -/
inductive NewReaderError
  | tableRead (e : TableReadError)
  | panicIndex
  | sizeMismatch
deriving DecidableEq

/-- `NewReadSeeker` over a full byte stream (`reader.go`, lines 32-68):
deserialize the seek table from the tail, read the last entry's cached
offsets to compute `totalUncompressedDataSize`, subtract the table size
from the stream length for `totalCompressedDataSize`, and check the
table against the stream length. -/
def NewReadSeeker (stream : List Nat) : Except NewReaderError ReaderState :=
  match ReadTableFromReadSeeker stream with
  | .error e => .error (.tableRead e)
  | .ok seekTable =>
    if hempty : (NumEntries seekTable : Int) - 1 < 0 then .error .panicIndex
    else
      let lastOffsets := OffsetsByIndex seekTable (NumEntries seekTable - 1)
      let lastEntry := GetEntry seekTable (NumEntries seekTable - 1)
      let totalUncompressedDataSize :=
        lastOffsets.EntryOffsetInDecompressed + lastEntry.DecompressedSize
      let totalCompressedDataSize := stream.length - TableSize seekTable
      if 0 < NumEntries seekTable ∧
          totalCompressedDataSize <
            lastOffsets.EntryOffsetInCompressed + lastEntry.CompressedSize then
        .error .sizeMismatch
      else
        .ok ⟨seekTable, 0, totalCompressedDataSize, totalUncompressedDataSize, 0, false, 0⟩

/-- The mathematical answer of an offset lookup: the unique index whose
decompressed range contains `off`, skipping zero-size entries. -/
def specIndex : List TableEntry → Nat → Option Nat
  | [], _ => none
  | e :: rest, off =>
    if off < e.DecompressedSize then some 0
    else (specIndex rest (off - e.DecompressedSize)).map (fun i => i + 1)

/-- Total number of input bytes across a sequence of `Write` calls. -/
def totalLen (datas : List (List Nat)) : Nat := (datas.map List.length).sum

/-! ## Helper lemmas: sums, `getD`, and the cached-offset slice -/

theorem getD_append_lt {α : Type} (l1 l2 : List α) (n : Nat) (d : α) (h : n < l1.length) :
    (l1 ++ l2).getD n d = l1.getD n d := by
  induction l1 generalizing n with
  | nil => simp at h
  | cons a rest ih =>
    cases n with
    | zero => rfl
    | succ m =>
      simp only [List.cons_append, List.getD_cons_succ]
      exact ih m (by simpa using h)

theorem getD_append_self {α : Type} (pre : List α) (e : α) (post : List α) (d : α) :
    (pre ++ e :: post).getD pre.length d = e := by
  induction pre with
  | nil => rfl
  | cons a rest ih => simpa using ih

theorem csizeSum_append (a b : List TableEntry) :
    csizeSum (a ++ b) = csizeSum a + csizeSum b := by
  induction a with
  | nil => simp [csizeSum]
  | cons e rest ih => simp [csizeSum, ih]; omega

theorem dsizeSum_append (a b : List TableEntry) :
    dsizeSum (a ++ b) = dsizeSum a + dsizeSum b := by
  induction a with
  | nil => simp [dsizeSum]
  | cons e rest ih => simp [dsizeSum, ih]; omega

theorem take_append_left {α : Type} (pre l : List α) (k : Nat) :
    (pre ++ l).take (pre.length + k) = pre ++ l.take k := by
  induction pre with
  | nil => simp
  | cons a rest ih =>
    simp only [List.length_cons, List.cons_append]
    have harith : rest.length + 1 + k = rest.length + k + 1 := by omega
    rw [harith, List.take_succ_cons, ih]

theorem dsizeSum_take_getD (t : Table) (i : Nat) (h : i < t.length) :
    dsizeSum (t.take (i + 1)) = dsizeSum (t.take i) + (GetEntry t i).DecompressedSize := by
  induction t generalizing i with
  | nil => simp at h
  | cons e rest ih =>
    cases i with
    | zero => simp [dsizeSum, GetEntry]
    | succ m =>
      simp only [List.take_succ_cons, dsizeSum, GetEntry, List.getD_cons_succ]
      rw [ih m (by simpa using h)]
      simp [GetEntry]
      omega

theorem dsizeSum_take_mono (t : Table) (j k : Nat) (h : j ≤ k) :
    dsizeSum (t.take j) ≤ dsizeSum (t.take k) := by
  induction t generalizing j k with
  | nil => simp
  | cons e rest ih =>
    cases j with
    | zero => cases k <;> simp [dsizeSum] <;> omega
    | succ j2 =>
      cases k with
      | zero => omega
      | succ k2 =>
        simp only [List.take_succ_cons, dsizeSum]
        have := ih j2 k2 (by omega)
        omega

theorem dsizeSum_take_le (t : Table) (k : Nat) : dsizeSum (t.take k) ≤ dsizeSum t := by
  by_cases hk : k ≤ t.length
  · have h := dsizeSum_take_mono t k t.length hk
    simpa [List.take_length] using h
  · rw [List.take_of_length_le (by omega)]

theorem cacheOffsetsFrom_length (l : List TableEntry) (i c d : Nat) :
    (cacheOffsetsFrom i c d l).length = l.length := by
  induction l generalizing i c d with
  | nil => rfl
  | cons e rest ih => simp [cacheOffsetsFrom, ih]

theorem CacheOffsets_length (t : Table) : (CacheOffsets t).length = t.length :=
  cacheOffsetsFrom_length t 0 0 0

theorem cacheOffsetsFrom_getD (l : List TableEntry) (i c d k : Nat) (h : k < l.length) :
    (cacheOffsetsFrom i c d l).getD k ⟨0, 0, 0⟩ =
      ⟨i + k, c + csizeSum (l.take k), d + dsizeSum (l.take k)⟩ := by
  induction l generalizing i c d k with
  | nil => simp at h
  | cons e rest ih =>
    cases k with
    | zero => simp [cacheOffsetsFrom, csizeSum, dsizeSum]
    | succ m =>
      simp only [cacheOffsetsFrom, List.getD_cons_succ]
      rw [ih (i + 1) _ _ m (by simpa using h)]
      simp only [List.take_succ_cons, csizeSum, dsizeSum]
      congr 1 <;> omega

theorem CacheOffsets_getD (t : Table) (k : Nat) (h : k < t.length) :
    (CacheOffsets t).getD k ⟨0, 0, 0⟩ = tableOffsetAt t k := by
  rw [CacheOffsets, cacheOffsetsFrom_getD t 0 0 0 k h, tableOffsetAt]
  simp

theorem specIndex_sound (t : Table) (off i : Nat) (h : specIndex t off = some i) :
    i < t.length ∧ dsizeSum (t.take i) ≤ off ∧
      off < dsizeSum (t.take i) + (GetEntry t i).DecompressedSize := by
  induction t generalizing off i with
  | nil => simp [specIndex] at h
  | cons e rest ih =>
    by_cases hcase : off < e.DecompressedSize
    · simp [specIndex, hcase] at h
      subst h
      simp [dsizeSum, GetEntry]
      omega
    · simp [specIndex, hcase] at h
      obtain ⟨j, hj, rfl⟩ := h
      obtain ⟨h1, h2, h3⟩ := ih (off - e.DecompressedSize) j hj
      refine ⟨by simpa using h1, ?_, ?_⟩
      · simp only [List.take_succ_cons, dsizeSum]
        omega
      · simp only [List.take_succ_cons, dsizeSum, GetEntry, List.getD_cons_succ] at *
        omega

theorem specIndex_none (t : Table) (off : Nat) (h : dsizeSum t ≤ off) :
    specIndex t off = none := by
  induction t generalizing off with
  | nil => rfl
  | cons e rest ih =>
    simp only [dsizeSum] at h
    have hcase : ¬ off < e.DecompressedSize := by omega
    simp [specIndex, hcase, ih (off - e.DecompressedSize) (by omega)]

theorem specIndex_total (t : Table) (off : Nat) (h : off < dsizeSum t) :
    ∃ i, specIndex t off = some i := by
  induction t generalizing off with
  | nil => simp [dsizeSum] at h
  | cons e rest ih =>
    by_cases hcase : off < e.DecompressedSize
    · exact ⟨0, by simp [specIndex, hcase]⟩
    · simp only [dsizeSum] at h
      obtain ⟨j, hj⟩ := ih (off - e.DecompressedSize) (by omega)
      exact ⟨j + 1, by simp [specIndex, hcase, hj]⟩

theorem specIndex_complete (t : Table) (off m : Nat) (hm : m < t.length)
    (h1 : dsizeSum (t.take m) ≤ off)
    (h2 : off < dsizeSum (t.take m) + (GetEntry t m).DecompressedSize) :
    specIndex t off = some m := by
  induction t generalizing off m with
  | nil => simp at hm
  | cons e rest ih =>
    cases m with
    | zero =>
      simp only [List.take_zero, dsizeSum, GetEntry, List.getD_cons_zero] at h1 h2
      simp [specIndex]
      omega
    | succ m2 =>
      have hd : ¬ off < e.DecompressedSize := by
        simp only [List.take_succ_cons, dsizeSum] at h1
        have := dsizeSum_take_mono rest 0 m2 (by omega)
        simp only [List.take_zero, dsizeSum] at this
        omega
      simp only [List.take_succ_cons, dsizeSum, GetEntry, List.getD_cons_succ] at h1 h2
      have := ih (off - e.DecompressedSize) m2 (by simpa using hm)
        (by omega) (by simp only [GetEntry]; omega)
      simp [specIndex, hd, this]

/-! ## Correctness of the linear arm -/

theorem findLinearScan_spec (l pre : List TableEntry) (off : Nat)
    (hpre : dsizeSum pre ≤ off) :
    findLinearScan (pre ++ l) off
        (cacheOffsetsFrom pre.length (csizeSum pre) (dsizeSum pre) l) =
      match specIndex l (off - dsizeSum pre) with
      | some j => (tableOffsetAt (pre ++ l) (pre.length + j), true)
      | none => (⟨0, 0, 0⟩, false) := by
  induction l generalizing pre with
  | nil => simp [cacheOffsetsFrom, findLinearScan, specIndex]
  | cons e rest ih =>
    simp only [cacheOffsetsFrom, findLinearScan]
    have hget : GetEntry (pre ++ e :: rest) pre.length = e := getD_append_self pre e rest _
    rw [hget]
    by_cases htest : off < dsizeSum pre + e.DecompressedSize
    · have hspec : specIndex (e :: rest) (off - dsizeSum pre) = some 0 := by
        simp [specIndex]
        omega
      rw [if_pos ⟨hpre, htest⟩, hspec]
      have htake : (pre ++ e :: rest).take (pre.length + 0) = pre := by
        rw [take_append_left]
        simp
      simp [tableOffsetAt, htake]
    · rw [if_neg (by omega)]
      have hpre2 : dsizeSum (pre ++ [e]) ≤ off := by
        rw [dsizeSum_append]
        simp only [dsizeSum]
        omega
      have hip := ih (pre ++ [e]) hpre2
      have hassoc : (pre ++ [e]) ++ rest = pre ++ e :: rest := by simp
      have hlen : (pre ++ [e]).length = pre.length + 1 := by simp
      have hcs : csizeSum (pre ++ [e]) = csizeSum pre + e.CompressedSize := by
        rw [csizeSum_append]
        simp [csizeSum]
      have hds : dsizeSum (pre ++ [e]) = dsizeSum pre + e.DecompressedSize := by
        rw [dsizeSum_append]
        simp [dsizeSum]
      rw [hassoc, hlen, hcs, hds] at hip
      rw [hip]
      have hspec : specIndex (e :: rest) (off - dsizeSum pre) =
          (specIndex rest (off - (dsizeSum pre + e.DecompressedSize))).map (fun i => i + 1) := by
        have hsub : off - dsizeSum pre - e.DecompressedSize =
            off - (dsizeSum pre + e.DecompressedSize) := by omega
        simp [specIndex, hsub]
        omega
      rw [hspec]
      rcases hs : specIndex rest (off - (dsizeSum pre + e.DecompressedSize)) with _ | j
      · simp
      · have harith : pre.length + 1 + j = pre.length + (j + 1) := by omega
        simp [harith]

theorem FindLinear_eq (t : Table) (off : Nat) :
    FindLinear t off =
      match specIndex t off with
      | some j => (tableOffsetAt t j, true)
      | none => (⟨0, 0, 0⟩, false) := by
  have h := findLinearScan_spec t [] off (by simp [dsizeSum])
  simp only [List.nil_append, List.length_nil, Nat.zero_add, Nat.sub_zero] at h
  rw [FindLinear, CacheOffsets]
  have hcs : csizeSum [] = 0 := rfl
  have hds : dsizeSum [] = 0 := rfl
  rw [hcs, hds] at h
  exact h

/-! ## Correctness of the binary arm -/

theorem findBinarySearch_found (t : Table) (off i : Nat) (hi : specIndex t off = some i) :
    ∀ (fuel : Nat) (low high : Int), (high + 1 - low).toNat ≤ fuel →
    0 ≤ low → low ≤ (i : Int) → (i : Int) ≤ high → high < (t.length : Int) →
    findBinarySearch t (CacheOffsets t) off low high = (tableOffsetAt t i, true) := by
  obtain ⟨hilen, hi1, hi2⟩ := specIndex_sound t off i hi
  intro fuel
  induction fuel with
  | zero =>
    intro low high hf h0 hl hh hlen
    omega
  | succ fuel ih =>
    intro low high hf h0 hl hh hlen
    have hlh : low ≤ high := by omega
    rw [findBinarySearch, dif_pos hlh]
    have hmid1 : low ≤ (low + high) / 2 := by omega
    have hmid2 : (low + high) / 2 ≤ high := by omega
    have hmval : (((low + high) / 2).toNat : Int) = (low + high) / 2 := by omega
    have hmlen : ((low + high) / 2).toNat < t.length := by omega
    simp only []
    rw [CacheOffsets_getD t _ hmlen]
    simp only [tableOffsetAt]
    by_cases htest : dsizeSum (t.take ((low + high) / 2).toNat) ≤ off ∧
        off < dsizeSum (t.take ((low + high) / 2).toNat) +
          (GetEntry t ((low + high) / 2).toNat).DecompressedSize
    · rw [if_pos htest]
      have := specIndex_complete t off ((low + high) / 2).toNat hmlen htest.1 htest.2
      rw [hi] at this
      have heq : i = ((low + high) / 2).toNat := Option.some.inj this
      subst heq
      rfl
    · rw [if_neg htest]
      by_cases hlt : off < dsizeSum (t.take ((low + high) / 2).toNat)
      · rw [if_pos hlt]
        have hir : i < ((low + high) / 2).toNat := by
          by_contra hcon
          have := dsizeSum_take_mono t ((low + high) / 2).toNat i (by omega)
          omega
        exact ih low ((low + high) / 2 - 1) (by omega) h0 hl (by omega) (by omega)
      · rw [if_neg hlt]
        have hnext : dsizeSum (t.take (((low + high) / 2).toNat + 1)) ≤ off := by
          rw [dsizeSum_take_getD t _ hmlen]
          omega
        have hir : ((low + high) / 2).toNat < i := by
          by_contra hcon
          have hmono := dsizeSum_take_mono t (i + 1) (((low + high) / 2).toNat + 1) (by omega)
          rw [dsizeSum_take_getD t i hilen] at hmono
          omega
        exact ih ((low + high) / 2 + 1) high (by omega) (by omega) (by omega) hh hlen

theorem findBinarySearch_none (t : Table) (off : Nat) (hnone : specIndex t off = none) :
    ∀ (fuel : Nat) (low high : Int), (high + 1 - low).toNat ≤ fuel →
    0 ≤ low → high < (t.length : Int) →
    findBinarySearch t (CacheOffsets t) off low high = (⟨0, 0, 0⟩, false) := by
  intro fuel
  induction fuel with
  | zero =>
    intro low high hf h0 hlen
    have hlh : ¬ low ≤ high := by omega
    rw [findBinarySearch, dif_neg hlh]
  | succ fuel ih =>
    intro low high hf h0 hlen
    by_cases hlh : low ≤ high
    · rw [findBinarySearch, dif_pos hlh]
      have hmid1 : low ≤ (low + high) / 2 := by omega
      have hmid2 : (low + high) / 2 ≤ high := by omega
      have hmlen : ((low + high) / 2).toNat < t.length := by omega
      simp only []
      rw [CacheOffsets_getD t _ hmlen]
      simp only [tableOffsetAt]
      have htest : ¬ (dsizeSum (t.take ((low + high) / 2).toNat) ≤ off ∧
          off < dsizeSum (t.take ((low + high) / 2).toNat) +
            (GetEntry t ((low + high) / 2).toNat).DecompressedSize) := by
        intro hcon
        have := specIndex_complete t off ((low + high) / 2).toNat hmlen hcon.1 hcon.2
        rw [hnone] at this
        exact Option.noConfusion this
      rw [if_neg htest]
      by_cases hlt : off < dsizeSum (t.take ((low + high) / 2).toNat)
      · rw [if_pos hlt]
        exact ih low ((low + high) / 2 - 1) (by omega) h0 (by omega)
      · rw [if_neg hlt]
        exact ih ((low + high) / 2 + 1) high (by omega) (by omega) hlen
    · rw [findBinarySearch, dif_neg hlh]

theorem FindBinary_eq (t : Table) (off : Nat) :
    FindBinary t off =
      match specIndex t off with
      | some j => (tableOffsetAt t j, true)
      | none => (⟨0, 0, 0⟩, false) := by
  rw [FindBinary, CacheOffsets_length]
  rcases hs : specIndex t off with _ | j
  · exact findBinarySearch_none t off hs _ 0 ((t.length : Int) - 1) (le_refl _)
      (le_refl 0) (by omega)
  · have hj := specIndex_sound t off j hs
    exact findBinarySearch_found t off j hs _ 0 ((t.length : Int) - 1) (le_refl _)
      (le_refl 0) (by omega) (by omega) (by omega)

theorem Find_eq (t : Table) (off : Nat) :
    Find t off =
      match specIndex t off with
      | some j => (tableOffsetAt t j, true)
      | none => (⟨0, 0, 0⟩, false) := by
  rw [Find]
  by_cases h : (CacheOffsets t).length < 32
  · rw [if_pos h, FindLinear_eq]
  · rw [if_neg h, FindBinary_eq]

/-! ## Byte-level lemmas for the table codec -/

theorem le32v_u32le (v : Nat) :
    le32v (v % 256) (v / 256 % 256) (v / 65536 % 256) (v / 16777216 % 256) =
      v % 4294967296 := by
  have h1 : v % 4294967296 = v % 16777216 + 16777216 * (v / 16777216 % 256) := by
    rw [show (4294967296 : Nat) = 16777216 * 256 from rfl, Nat.mod_mul]
  have h2 : v % 16777216 = v % 65536 + 65536 * (v / 65536 % 256) := by
    rw [show (16777216 : Nat) = 65536 * 256 from rfl, Nat.mod_mul]
  have h3 : v % 65536 = v % 256 + 256 * (v / 256 % 256) := by
    rw [show (65536 : Nat) = 256 * 256 from rfl, Nat.mod_mul]
  rw [le32v]
  omega

theorem le32at_u32le (v : Nat) (rest : List Nat) :
    le32at (u32le v ++ rest) 0 = v % 4294967296 := by
  have h := le32v_u32le v
  simpa [le32at, u32le, byteAt] using h

theorem le32at_cons_succ (a : Nat) (l : List Nat) (i : Nat) :
    le32at (a :: l) (i + 1) = le32at l i := by
  simp [le32at, byteAt]

theorem byteAt_cons_succ (a : Nat) (l : List Nat) (i : Nat) :
    byteAt (a :: l) (i + 1) = byteAt l i := by
  simp [byteAt]

theorem entriesBytes_length (t : Table) : (entriesBytes t).length = 8 * t.length := by
  induction t with
  | nil => rfl
  | cons e rest ih =>
    simp only [entriesBytes, List.length_append, List.length_cons, ih, entryBytes, u32le]
    simp
    omega

theorem WriteTableToWriter_length (t : Table) :
    (WriteTableToWriter t).length = 8 * t.length + 17 := by
  simp only [WriteTableToWriter, List.length_append, entriesBytes_length, u32le]
  simp
  omega

theorem bytesToEntries_entriesBytes (t : Table) (hv : TableValid t) :
    bytesToEntries (entriesBytes t) = t := by
  induction t with
  | nil => rfl
  | cons e rest ih =>
    have he : EntryValid e := hv e (by simp)
    have hrest : TableValid rest := fun x hx => hv x (by simp [hx])
    have he1 : e.CompressedSize < 4294967296 := by have := he.1; omega
    have he2 : e.DecompressedSize < 4294967296 := by have := he.2; omega
    simp only [entriesBytes, entryBytes, u32le, List.cons_append, List.nil_append]
    rw [bytesToEntries]
    rw [ih hrest]
    have hc := le32v_u32le e.CompressedSize
    have hd := le32v_u32le e.DecompressedSize
    rw [hc, hd, Nat.mod_eq_of_lt he1, Nat.mod_eq_of_lt he2]

theorem emptyChunkCheck_nonzero (c : Nat) (rest : List Nat) (hlt : c < 4294967296)
    (hne : c ≠ 0) : emptyChunkCheck (u32le c ++ rest) = .ok () := by
  have hrec := le32v_u32le c
  rw [Nat.mod_eq_of_lt hlt] at hrec
  have hzero : ¬ (c % 256 = 0 ∧ c / 256 % 256 = 0 ∧ c / 65536 % 256 = 0 ∧
      c / 16777216 % 256 = 0) := by
    rintro ⟨h0, h1, h2, h3⟩
    rw [le32v, h0, h1, h2, h3] at hrec
    omega
  simp only [u32le, List.cons_append, emptyChunkCheck]
  by_cases h0 : c % 256 = 0 <;> by_cases h1 : c / 256 % 256 = 0 <;>
    by_cases h2 : c / 65536 % 256 = 0 <;> by_cases h3 : c / 16777216 % 256 = 0 <;>
    simp_all

theorem le32at_u32le_nil (v : Nat) : le32at (u32le v) 0 = v % 4294967296 := by
  have h := le32at_u32le v []
  simpa using h

theorem le32at_skip4 (v : Nat) (l : List Nat) : le32at (u32le v ++ l) 4 = le32at l 0 := by
  simp [u32le, le32at, byteAt]

theorem le32at_skip5 (v : Nat) (l : List Nat) :
    le32at (u32le v ++ (0 :: l)) 5 = le32at l 0 := by
  simp [u32le, le32at, byteAt]

theorem tail9 (A B : List Nat) (hB : B.length = 9) :
    ((A ++ B).drop ((A ++ B).length - 9)).take 9 = B := by
  have h1 : (A ++ B).length - 9 = A.length := by
    simp [List.length_append]
    omega
  rw [h1, List.drop_left]
  rw [← hB, List.take_length]

theorem take_pref (A B : List Nat) (k : Nat) (hA : A.length = k) : (A ++ B).take k = A := by
  subst hA
  exact List.take_left A B

theorem drop_pref (A B : List Nat) (k : Nat) (hA : A.length = k) : (A ++ B).drop k = B := by
  subst hA
  exact List.drop_left A B

set_option maxHeartbeats 1000000 in
/-- Serialize-then-deserialize recovers the table, for every
byte-representable table whose serialized size fits the `uint32` size
fields and whose first entry (if any) has a non-zero compressed size
(the deserializer's emptiness check inspects exactly that field). -/
theorem readTable_writeTable (t : Table) (hv : TableValid t)
    (hb : 8 * t.length + 17 < 4294967296)
    (hh : ∀ e rest2, t = e :: rest2 → e.CompressedSize ≠ 0) :
    ReadTableFromReadSeeker (WriteTableToWriter t) = .ok t := by
  have hlen := WriteTableToWriter_length t
  have hfoot9 : (u32le t.length ++ ([0] ++ u32le footerMagicNumber)).length = 9 := by
    simp [u32le]
  have hheadlen : (u32le headerMagicNumber ++ u32le (8 * t.length + 9)).length = 8 := by
    simp [u32le]
  have hW2 : WriteTableToWriter t =
      (u32le headerMagicNumber ++ u32le (8 * t.length + 9)) ++
        (entriesBytes t ++ (u32le t.length ++ ([0] ++ u32le footerMagicNumber))) := by
    rw [WriteTableToWriter]
    simp [List.append_assoc]
  have hW3 : WriteTableToWriter t =
      ((u32le headerMagicNumber ++ u32le (8 * t.length + 9)) ++ entriesBytes t) ++
        (u32le t.length ++ ([0] ++ u32le footerMagicNumber)) := by
    rw [WriteTableToWriter]
    simp [List.append_assoc]
  have hfooter : ((WriteTableToWriter t).drop (8 * t.length + 17 - 9)).take 9 =
      u32le t.length ++ ([0] ++ u32le footerMagicNumber) := by
    have h := tail9 ((u32le headerMagicNumber ++ u32le (8 * t.length + 9)) ++ entriesBytes t)
      (u32le t.length ++ ([0] ++ u32le footerMagicNumber)) hfoot9
    rw [← hW3] at h
    rw [hlen] at h
    exact h
  have hnum : le32at (u32le t.length ++ ([0] ++ u32le footerMagicNumber)) 0 = t.length := by
    rw [le32at_u32le]
    exact Nat.mod_eq_of_lt (by omega)
  have hfm : le32at (u32le t.length ++ ([0] ++ u32le footerMagicNumber)) 5 =
      footerMagicNumber := by
    rw [List.singleton_append, le32at_skip5, le32at_u32le_nil]
    rfl
  have hheader : ((WriteTableToWriter t).drop 0).take 8 =
      u32le headerMagicNumber ++ u32le (8 * t.length + 9) := by
    rw [List.drop_zero, hW2]
    exact take_pref _ _ 8 hheadlen
  have hhm : le32at (u32le headerMagicNumber ++ u32le (8 * t.length + 9)) 0 =
      headerMagicNumber := by
    rw [le32at_u32le]
    rfl
  have hdecl : le32at (u32le headerMagicNumber ++ u32le (8 * t.length + 9)) 4 =
      (8 * t.length + 9) % 4294967296 := by
    rw [le32at_skip4, le32at_u32le_nil]
  have hentries : ((WriteTableToWriter t).drop 8).take (8 * t.length) = entriesBytes t := by
    rw [hW2, drop_pref _ _ 8 hheadlen]
    exact take_pref _ _ (8 * t.length) (entriesBytes_length t)
  unfold ReadTableFromReadSeeker
  simp only []
  rw [hlen, hfooter, hnum, hfm]
  rw [if_neg (by omega), if_neg (by simp [footerMagicNumber])]
  have hsts : (8 + t.length * 8 + 9) % 2 ^ 32 = 8 * t.length + 17 := by omega
  rw [hsts, if_neg (by omega)]
  have hpos : 8 * t.length + 17 - (8 * t.length + 17) = 0 := by omega
  rw [hpos]
  have hregH : byteRegion (WriteTableToWriter t) 0 8 =
      some (u32le headerMagicNumber ++ u32le (8 * t.length + 9)) := by
    rw [byteRegion, if_pos (by omega), hheader]
  rw [hregH]
  simp only [hhm, hdecl]
  rw [if_neg (by simp [headerMagicNumber])]
  rw [if_neg (by omega)]
  have helen : t.length * 8 % 2 ^ 32 = 8 * t.length := by omega
  rw [helen]
  have hregE : byteRegion (WriteTableToWriter t) (0 + 8) (8 * t.length) =
      some (entriesBytes t) := by
    rw [byteRegion, if_pos (by omega)]
    simpa using hentries
  rw [hregE]
  simp only []
  cases ht : t with
  | nil =>
    simp [bytesToEntries]
  | cons e t2 =>
    have hne : e.CompressedSize ≠ 0 := hh e t2 ht
    have hclt : e.CompressedSize < 4294967296 := by
      have := (hv e (by rw [ht]; simp)).1
      omega
    rw [if_pos (by simp)]
    have hE : entriesBytes (e :: t2) =
        u32le e.CompressedSize ++ (u32le e.DecompressedSize ++ entriesBytes t2) := by
      simp [entriesBytes, entryBytes, List.append_assoc]
    rw [hE, emptyChunkCheck_nonzero e.CompressedSize _ hclt hne]
    rw [← hE, bytesToEntries_entriesBytes _ (ht ▸ hv)]

/-! ## Serialized layout (C9) -/

/-- The byte layout emitted by `WriteTableToWriter`, read back field by
field, for every table whose `declaredSize = 8*count + 9` fits the 4-byte
header field. -/
theorem writeTable_layout (t : Table) (hb : 8 * t.length + 9 < 4294967296) :
    TableSize t = t.length * 8 + 17 ∧
    writeTableReturn t = t.length * 8 + 17 ∧
    (WriteTableToWriter t).length = TableSize t ∧
    le32at (WriteTableToWriter t) 0 = 0x184D2A5E ∧
    le32at (WriteTableToWriter t) 4 = t.length * 8 + 9 ∧
    le32at ((WriteTableToWriter t).drop ((WriteTableToWriter t).length - 9)) 0 = t.length ∧
    byteAt ((WriteTableToWriter t).drop ((WriteTableToWriter t).length - 9)) 4 = 0 ∧
    le32at ((WriteTableToWriter t).drop ((WriteTableToWriter t).length - 9)) 5 =
      0x8F92EAB1 := by
  have hlen := WriteTableToWriter_length t
  have hW1 : WriteTableToWriter t =
      u32le headerMagicNumber ++ (u32le (8 * t.length + 9) ++
        (entriesBytes t ++ (u32le t.length ++ ([0] ++ u32le footerMagicNumber)))) := by
    rw [WriteTableToWriter]
    simp [List.append_assoc]
  have hW3 : WriteTableToWriter t =
      ((u32le headerMagicNumber ++ u32le (8 * t.length + 9)) ++ entriesBytes t) ++
        (u32le t.length ++ ([0] ++ u32le footerMagicNumber)) := by
    rw [WriteTableToWriter]
    simp [List.append_assoc]
  have hprelen : ((u32le headerMagicNumber ++ u32le (8 * t.length + 9)) ++
      entriesBytes t).length = 8 * t.length + 17 - 9 := by
    simp only [List.length_append, entriesBytes_length, u32le, List.length_cons,
      List.length_nil]
    omega
  have hfootD : (WriteTableToWriter t).drop ((WriteTableToWriter t).length - 9) =
      u32le t.length ++ ([0] ++ u32le footerMagicNumber) := by
    rw [hlen, hW3]
    exact drop_pref _ _ _ hprelen
  refine ⟨by rw [TableSize]; omega, ?_, by rw [TableSize, hlen], ?_, ?_, ?_, ?_, ?_⟩
  · rw [writeTableReturn, entriesBytes_length]
    omega
  · rw [hW1, le32at_u32le]
    rfl
  · rw [hW1, le32at_skip4, le32at_u32le]
    rw [Nat.mod_eq_of_lt (by omega)]
    omega
  · rw [hfootD, le32at_u32le]
    exact Nat.mod_eq_of_lt (by omega)
  · rw [hfootD]
    simp [u32le, byteAt]
  · rw [hfootD, List.singleton_append, le32at_skip5, le32at_u32le_nil]
    rfl

/-! ## Writer lemmas -/

theorem set_append_length {α : Type} (t : List α) (x v : α) :
    (t ++ [x]).set t.length v = t ++ [v] := by
  induction t with
  | nil => rfl
  | cons a rest ih => simpa using ih

theorem AppendEntry_eq (t : Table) (e : TableEntry) :
    AppendEntry t e = t ++ [⟨e.CompressedSize % 2 ^ 32, e.DecompressedSize % 2 ^ 32⟩] := by
  rw [AppendEntry, SetEntry, NumEntries]
  have h1 : (t ++ [(⟨0, 0⟩ : TableEntry)]).length - 1 = t.length := by
    simp
  rw [h1, set_append_length]

theorem dsizeSum_eq_map_sum (t : Table) :
    dsizeSum t = (t.map (fun e => e.DecompressedSize)).sum := by
  induction t with
  | nil => rfl
  | cons e rest ih => simp [dsizeSum, ih]

/-- One `Write` call with an always-succeeding sink, from any state whose
buffer is strictly under a frame: it succeeds and appends exactly one
`frameSize`-sized table record per frame boundary crossed, leaving the
remainder in the buffer. -/
theorem Write_ok (fuel : Nat) :
    ∀ (data : List Nat) (enc : List Nat → List Nat) (frameSize : Nat) (s : WriterState)
      (n : Nat),
    data.length ≤ fuel → 0 < frameSize → s.frameBuffer.length < frameSize →
    ∃ n2 s2 es,
      Write enc okSink frameSize s data n = some (n2, false, s2) ∧
      s2.seekTable = s.seekTable ++ es ∧
      es.map (fun e => e.DecompressedSize) =
        List.replicate ((s.frameBuffer.length + data.length) / frameSize)
          (frameSize % 2 ^ 32) ∧
      s2.frameBuffer.length = (s.frameBuffer.length + data.length) % frameSize := by
  induction fuel with
  | zero =>
    intro data enc F s n hfuel hF hbuf
    have hd : data = [] := List.eq_nil_of_length_eq_zero (by omega)
    subst hd
    refine ⟨n, s, [], by rw [Write]; simp, by simp, ?_, ?_⟩
    · simp [Nat.div_eq_of_lt (by simpa using hbuf)]
    · simp [Nat.mod_eq_of_lt (by simpa using hbuf)]
  | succ fuel ih =>
    intro data enc F s n hfuel hF hbuf
    by_cases hd : data = []
    · subst hd
      refine ⟨n, s, [], by rw [Write]; simp, by simp, ?_, ?_⟩
      · simp [Nat.div_eq_of_lt (by simpa using hbuf)]
      · simp [Nat.mod_eq_of_lt (by simpa using hbuf)]
    · rw [Write, dif_neg hd, dif_neg (by omega : ¬ F = 0)]
      by_cases hfast : s.frameBuffer = [] ∧ F ≤ data.length
      · rw [dif_pos hfast]
        obtain ⟨hbe, hflen⟩ := hfast
        simp only [okSink]
        have htake : (data.take F).length = F := by
          simp [List.length_take]
          omega
        obtain ⟨n2, s2, es, heq, htab, hmap, hbl⟩ :=
          ih (data.drop F) enc F
            ⟨s.frameBuffer,
              AppendEntry s.seekTable
                ⟨(enc (data.take F)).length % 2 ^ 32, (data.take F).length % 2 ^ 32⟩,
              s.sinkCalls + 1⟩
            (n + (enc (data.take F)).length)
            (by simp only [List.length_drop]; omega) hF (by simp [hbe]; omega)
        simp only [hbe, List.length_nil, Nat.zero_add, List.length_drop] at hmap hbl
        refine ⟨n2, s2,
          ⟨(enc (data.take F)).length % 2 ^ 32, (data.take F).length % 2 ^ 32⟩ :: es,
          heq, ?_, ?_, ?_⟩
        · rw [htab, AppendEntry_eq]
          have hm1 : ∀ x : Nat, x % 2 ^ 32 % 2 ^ 32 = x % 2 ^ 32 := fun x =>
            Nat.mod_mod_of_dvd x (dvd_refl _)
          rw [hm1, hm1, List.append_assoc]
          rfl
        · simp only [List.map_cons, hmap, htake]
          have hdiv : (s.frameBuffer.length + data.length) / F =
              (data.length - F) / F + 1 := by
            rw [hbe, List.length_nil, Nat.zero_add, Nat.div_eq data.length F,
              if_pos ⟨hF, hflen⟩]
          rw [hdiv, List.replicate_succ]
        · rw [hbl, hbe, List.length_nil, Nat.zero_add]
          exact (Nat.mod_eq_sub_mod hflen).symm
      · rw [dif_neg hfast, dif_neg (by omega : ¬ F < s.frameBuffer.length)]
        have hdpos : 0 < data.length := List.length_pos.mpr hd
        have htwpos : 0 < min data.length (F - s.frameBuffer.length) := by
          by_cases hb : s.frameBuffer = []
          · have hnle : ¬ F ≤ data.length := fun hcon => hfast ⟨hb, hcon⟩
            simp only [hb, List.length_nil, Nat.sub_zero]
            omega
          · have hblpos : 0 < s.frameBuffer.length := List.length_pos.mpr hb
            omega
        have htwle : min data.length (F - s.frameBuffer.length) ≤ data.length :=
          Nat.min_le_left _ _
        have hbuflen : (s.frameBuffer ++
            data.take (min data.length (F - s.frameBuffer.length))).length =
            s.frameBuffer.length + min data.length (F - s.frameBuffer.length) := by
          simp only [List.length_append, List.length_take]
          omega
        by_cases hfull : (s.frameBuffer ++
            data.take (min data.length (F - s.frameBuffer.length))).length = F
        · rw [dif_pos hfull]
          simp only [okSink]
          have hfull2 : s.frameBuffer.length +
              min data.length (F - s.frameBuffer.length) = F := by
            rw [← hbuflen]
            exact hfull
          have harg : s.frameBuffer.length + data.length - F =
              data.length - min data.length (F - s.frameBuffer.length) := by omega
          have hFle : F ≤ s.frameBuffer.length + data.length := by omega
          obtain ⟨n2, s2, es, heq, htab, hmap, hbl⟩ :=
            ih (data.drop (min data.length (F - s.frameBuffer.length))) enc F
              ⟨[], AppendEntry s.seekTable
                ⟨(enc (s.frameBuffer ++
                    data.take (min data.length (F - s.frameBuffer.length)))).length % 2 ^ 32,
                  (s.frameBuffer ++
                    data.take (min data.length (F - s.frameBuffer.length))).length % 2 ^ 32⟩,
                s.sinkCalls + 1⟩
              (n + min data.length (F - s.frameBuffer.length))
              (by simp only [List.length_drop]; omega) hF (by simpa using hF)
          simp only [List.length_nil, Nat.zero_add, List.length_drop] at hmap hbl
          refine ⟨n2, s2,
            ⟨(enc (s.frameBuffer ++
                data.take (min data.length (F - s.frameBuffer.length)))).length % 2 ^ 32,
              (s.frameBuffer ++
                data.take (min data.length (F - s.frameBuffer.length))).length % 2 ^ 32⟩ :: es,
            heq, ?_, ?_, ?_⟩
          · rw [htab, AppendEntry_eq]
            have hm1 : ∀ x : Nat, x % 2 ^ 32 % 2 ^ 32 = x % 2 ^ 32 := fun x =>
              Nat.mod_mod_of_dvd x (dvd_refl _)
            rw [hm1, hm1, List.append_assoc]
            rfl
          · simp only [List.map_cons, hmap, hfull]
            have hdiv : (s.frameBuffer.length + data.length) / F =
                (data.length - min data.length (F - s.frameBuffer.length)) / F + 1 := by
              rw [Nat.div_eq (s.frameBuffer.length + data.length) F,
                if_pos ⟨hF, hFle⟩, harg]
            rw [hdiv, List.replicate_succ]
          · rw [hbl]
            rw [Nat.mod_eq_sub_mod hFle, harg]
        · rw [dif_neg hfull]
          have hfull2 : s.frameBuffer.length +
              min data.length (F - s.frameBuffer.length) ≠ F := by
            rw [← hbuflen]
            exact hfull
          obtain ⟨n2, s2, es, heq, htab, hmap, hbl⟩ :=
            ih (data.drop (min data.length (F - s.frameBuffer.length))) enc F
              ⟨s.frameBuffer ++
                  data.take (min data.length (F - s.frameBuffer.length)),
                s.seekTable, s.sinkCalls⟩
              (n + min data.length (F - s.frameBuffer.length))
              (by simp only [List.length_drop]; omega) hF
              (by rw [hbuflen]; omega)
          simp only [hbuflen, List.length_drop] at hmap hbl
          have harg2 : s.frameBuffer.length +
              min data.length (F - s.frameBuffer.length) +
              (data.length - min data.length (F - s.frameBuffer.length)) =
              s.frameBuffer.length + data.length := by omega
          rw [harg2] at hmap hbl
          exact ⟨n2, s2, es, heq, htab, hmap, hbl⟩

theorem add_div_helper (X T F : Nat) (hF : 0 < F) :
    X / F + (X % F + T) / F = (X + T) / F := by
  conv_rhs => rw [← Nat.div_add_mod X F]
  rw [Nat.add_assoc, Nat.mul_add_div hF]

/-- A run of `Write` calls with an always-succeeding sink: the table
gains one `frameSize`-sized record per completed frame of the
concatenated input, and the buffer holds the remainder. -/
theorem WriteAll_ok (datas : List (List Nat)) :
    ∀ (enc : List Nat → List Nat) (frameSize : Nat) (s : WriterState),
    0 < frameSize → s.frameBuffer.length < frameSize →
    ∃ s2 es,
      WriteAll enc okSink frameSize s datas = some (false, s2) ∧
      s2.seekTable = s.seekTable ++ es ∧
      es.map (fun e => e.DecompressedSize) =
        List.replicate ((s.frameBuffer.length + totalLen datas) / frameSize)
          (frameSize % 2 ^ 32) ∧
      s2.frameBuffer.length = (s.frameBuffer.length + totalLen datas) % frameSize := by
  induction datas with
  | nil =>
    intro enc F s hF hbuf
    refine ⟨s, [], rfl, by simp, ?_, ?_⟩
    · simp [totalLen, Nat.div_eq_of_lt hbuf]
    · simp [totalLen, Nat.mod_eq_of_lt hbuf]
  | cons d rest ih =>
    intro enc F s hF hbuf
    obtain ⟨n2, s2, es1, heq, htab1, hmap1, hbl1⟩ :=
      Write_ok d.length d enc F s 0 (le_refl _) hF hbuf
    have hbuf2 : s2.frameBuffer.length < F := by
      rw [hbl1]
      exact Nat.mod_lt _ hF
    obtain ⟨s3, es2, heq2, htab2, hmap2, hbl2⟩ := ih enc F s2 hF hbuf2
    refine ⟨s3, es1 ++ es2, ?_, ?_, ?_, ?_⟩
    · simp only [WriteAll, heq, heq2]
    · rw [htab2, htab1, List.append_assoc]
    · rw [List.map_append, hmap1, hmap2, hbl1]
      have htl : totalLen (d :: rest) = d.length + totalLen rest := by
        simp [totalLen]
      rw [htl, ← List.replicate_add]
      congr 1
      rw [add_div_helper _ _ _ hF, Nat.add_assoc]
    · rw [hbl2, hbl1, Nat.mod_add_mod]
      have htl : totalLen (d :: rest) = d.length + totalLen rest := by
        simp [totalLen]
      rw [htl, Nat.add_assoc]

/-- `Close` with an always-succeeding sink: flushes the remainder (when
non-empty) as one final table record and reports success. -/
theorem Close_ok (enc : List Nat → List Nat) (s : WriterState) :
    ∃ calls2, Close enc okSink s =
      (false, ⟨[], s.seekTable ++
        (if s.frameBuffer.length = 0 then []
         else [⟨(enc s.frameBuffer).length % 2 ^ 32, s.frameBuffer.length % 2 ^ 32⟩]),
        calls2⟩) := by
  by_cases hb : s.frameBuffer = []
  · refine ⟨s.sinkCalls + 3, ?_⟩
    simp [Close, okSink, hb]
  · refine ⟨s.sinkCalls + 1 + 3, ?_⟩
    have hlen0 : ¬ s.frameBuffer.length = 0 := by
      have := List.length_pos.mpr hb
      omega
    have hm1 : ∀ x : Nat, x % 2 ^ 32 % 2 ^ 32 = x % 2 ^ 32 := fun x =>
      Nat.mod_mod_of_dvd x (dvd_refl _)
    simp [Close, okSink, hb, AppendEntry_eq, hlen0, hm1]


/-! ## Seek lemmas -/

theorem seekTo_spec (r : ReaderState)
    (htot : r.totalUncompressedDataSize = dsizeSum r.seekTable) (newOffset : Nat) :
    (newOffset < dsizeSum r.seekTable →
      ∃ r2, Seek.seekTo r newOffset = .ok ((newOffset : Int), r2)) ∧
    (dsizeSum r.seekTable ≤ newOffset →
      Seek.seekTo r newOffset = .error .beyondEnd) := by
  constructor
  · intro hlt
    rw [Seek.seekTo, if_neg (by omega)]
    obtain ⟨j, hj⟩ := specIndex_total r.seekTable newOffset hlt
    rw [Find_eq, hj]
    exact ⟨_, rfl⟩
  · intro hge
    rw [Seek.seekTo]
    by_cases hrange : r.totalUncompressedDataSize < newOffset
    · rw [if_pos hrange]
    · rw [if_neg hrange, Find_eq, specIndex_none r.seekTable newOffset hge]

/-! ## Claim theorems -/

/-- C2: `Table.Find(offset)` returns not-found exactly when the table is
empty or `offset >= totalDecompressedSize` (the sum of all entries'
`DecompressedSize`); otherwise the returned `TableOffset` names an entry
whose decompressed range contains `offset`, and whose
`EntryOffsetInCompressed` / `EntryOffsetInDecompressed` are the sums of
the `CompressedSize` / `DecompressedSize` fields of all strictly
preceding entries. -/
theorem claimC2 (t : Table) (off : Nat) :
    ((Find t off).2 = false ↔ (t = [] ∨ dsizeSum t ≤ off)) ∧
    (∀ tOff : TableOffset, Find t off = (tOff, true) →
      tOff.EntryIndex < NumEntries t ∧
      tOff.EntryOffsetInCompressed = csizeSum (t.take tOff.EntryIndex) ∧
      tOff.EntryOffsetInDecompressed = dsizeSum (t.take tOff.EntryIndex) ∧
      tOff.EntryOffsetInDecompressed ≤ off ∧
      off < tOff.EntryOffsetInDecompressed +
        (GetEntry t tOff.EntryIndex).DecompressedSize) := by
  have hfe := Find_eq t off
  rcases hs : specIndex t off with _ | j
  · rw [hs] at hfe
    constructor
    · constructor
      · intro _
        by_contra hcon
        push_neg at hcon
        obtain ⟨j, hj⟩ := specIndex_total t off (by omega)
        rw [hs] at hj
        exact Option.noConfusion hj
      · intro _
        rw [hfe]
    · intro tOff heqf
      rw [hfe] at heqf
      simp at heqf
  · rw [hs] at hfe
    obtain ⟨hjlen, hj1, hj2⟩ := specIndex_sound t off j hs
    constructor
    · constructor
      · intro hfalse
        rw [hfe] at hfalse
        simp at hfalse
      · intro hcase
        exfalso
        rcases hcase with rfl | hge
        · simp at hjlen
        · rw [specIndex_none t off hge] at hs
          exact Option.noConfusion hs
    · intro tOff heqf
      rw [hfe] at heqf
      have h1 : tableOffsetAt t j = tOff := congrArg Prod.fst heqf
      subst h1
      exact ⟨hjlen, rfl, rfl, hj1, hj2⟩

/-- C2 witness: a concrete lookup on the one-entry table `[(2, 3)]` at
offset 1. -/
theorem claimC2_witness :
    (⟨0, 0, 0⟩ : TableOffset).EntryIndex < NumEntries [(⟨2, 3⟩ : TableEntry)] ∧
    (⟨0, 0, 0⟩ : TableOffset).EntryOffsetInCompressed =
      csizeSum (([(⟨2, 3⟩ : TableEntry)]).take (⟨0, 0, 0⟩ : TableOffset).EntryIndex) ∧
    (⟨0, 0, 0⟩ : TableOffset).EntryOffsetInDecompressed =
      dsizeSum (([(⟨2, 3⟩ : TableEntry)]).take (⟨0, 0, 0⟩ : TableOffset).EntryIndex) ∧
    (⟨0, 0, 0⟩ : TableOffset).EntryOffsetInDecompressed ≤ 1 ∧
    1 < (⟨0, 0, 0⟩ : TableOffset).EntryOffsetInDecompressed +
      (GetEntry [(⟨2, 3⟩ : TableEntry)]
        (⟨0, 0, 0⟩ : TableOffset).EntryIndex).DecompressedSize :=
  (claimC2 [⟨2, 3⟩] 1).2 ⟨0, 0, 0⟩ (by rfl)

/-- C7: for every table and offset, the linear-scan arm and the
binary-search arm of `Find` return identical results. -/
theorem claimC7 (t : Table) (off : Nat) : FindLinear t off = FindBinary t off := by
  rw [FindLinear_eq, FindBinary_eq]

/-- C10: `AppendEntry` grows the table by one, stores the new entry
exactly (both fields), and leaves every earlier entry unchanged.  The
hypotheses only record the Go `uint32` field types. -/
theorem claimC10 (t : Table) (e : TableEntry)
    (hc : e.CompressedSize < 2 ^ 32) (hd : e.DecompressedSize < 2 ^ 32) :
    NumEntries (AppendEntry t e) = NumEntries t + 1 ∧
    GetEntry (AppendEntry t e) (NumEntries t) = e ∧
    (∀ i, i < NumEntries t → GetEntry (AppendEntry t e) i = GetEntry t i) := by
  refine ⟨?_, ?_, ?_⟩
  · simp [NumEntries, AppendEntry_eq]
  · rw [AppendEntry_eq, Nat.mod_eq_of_lt hc, Nat.mod_eq_of_lt hd, NumEntries, GetEntry,
      getD_append_self]
  · intro i hi
    rw [AppendEntry_eq, GetEntry, GetEntry, getD_append_lt _ _ _ _ hi]

/-- C10 witness: appending `(3, 4)` to the one-entry table `[(1, 2)]`. -/
theorem claimC10_witness :
    NumEntries (AppendEntry [⟨1, 2⟩] ⟨3, 4⟩) = NumEntries [(⟨1, 2⟩ : TableEntry)] + 1 ∧
    GetEntry (AppendEntry [⟨1, 2⟩] ⟨3, 4⟩) (NumEntries [(⟨1, 2⟩ : TableEntry)]) = ⟨3, 4⟩ ∧
    (∀ i, i < NumEntries [(⟨1, 2⟩ : TableEntry)] →
      GetEntry (AppendEntry [⟨1, 2⟩] ⟨3, 4⟩) i = GetEntry [(⟨1, 2⟩ : TableEntry)] i) :=
  claimC10 [⟨1, 2⟩] ⟨3, 4⟩ (by decide) (by decide)

/-- C4 counterexample: on a reader over the one-entry table `[(1, 5)]`
(total decompressed size 5), `Seek(5, SeekStart)` — the offset exactly
equal to `totalUncompressedDataSize` — fails: the range check admits it
but `Find(5)` is not-found, so the code returns the beyond-end error,
while the claim says it must succeed and return 5. -/
theorem claimC4_counterexample :
    Seek ⟨[⟨1, 5⟩], 0, 1, 5, 0, false, 0⟩ 5 0 = .error .beyondEnd ∧
    (⟨[⟨1, 5⟩], 0, 1, 5, 0, false, 0⟩ : ReaderState).totalUncompressedDataSize =
      dsizeSum [⟨1, 5⟩] := by
  exact ⟨rfl, rfl⟩

/-- C4 (amended): for a reader over a non-empty table whose
`totalUncompressedDataSize` matches the table, `Seek(o, SeekStart)`
succeeds returning `o` for every `0 <= o < totalDecompressedSize`, and
fails exactly when `o` is negative or `o >= totalDecompressedSize`
(in particular `o = totalDecompressedSize` is rejected through the
not-found path). -/
theorem claimC4_amended (r : ReaderState) (hne : r.seekTable ≠ [])
    (htot : r.totalUncompressedDataSize = dsizeSum r.seekTable) (o : Int) :
    (0 ≤ o ∧ o < (dsizeSum r.seekTable : Int) → ∃ r2, Seek r o 0 = .ok (o, r2)) ∧
    (o < 0 ∨ (dsizeSum r.seekTable : Int) ≤ o → ∃ e, Seek r o 0 = .error e) ∧
    (∀ v r2, Seek r o 0 = .ok (v, r2) →
      0 ≤ o ∧ o < (dsizeSum r.seekTable : Int) ∧ v = o) := by
  have hspec := seekTo_spec r htot
  refine ⟨?_, ?_, ?_⟩
  · rintro ⟨h0, hlt⟩
    obtain ⟨r2, hr2⟩ := (hspec o.toNat).1 (by omega)
    refine ⟨r2, ?_⟩
    rw [Seek, if_neg (by omega), hr2]
    congr 1
    rw [Prod.mk.injEq]
    constructor
    · omega
    · rfl
  · intro hcase
    rcases hcase with hneg | hge
    · exact ⟨.negativeOffset, by rw [Seek, if_pos hneg]⟩
    · refine ⟨.beyondEnd, ?_⟩
      rw [Seek, if_neg (by omega)]
      exact (hspec o.toNat).2 (by omega)
  · intro v r2 hok
    by_cases hneg : o < 0
    · rw [Seek, if_pos hneg] at hok
      exact Except.noConfusion hok
    · by_cases hlt : o.toNat < dsizeSum r.seekTable
      · obtain ⟨r3, hr3⟩ := (hspec o.toNat).1 hlt
        rw [Seek, if_neg hneg, hr3] at hok
        have hv : ((o.toNat : Int), r3) = (v, r2) := by
          exact Except.ok.inj hok
        have hveq : v = (o.toNat : Int) := (congrArg Prod.fst hv).symm
        refine ⟨by omega, by omega, by omega⟩
      · have := (hspec o.toNat).2 (by omega)
        rw [Seek, if_neg hneg, this] at hok
        exact Except.noConfusion hok

/-- C4 witness: on a reader over `[(1, 5)]`, `Seek(2, SeekStart)`
succeeds and returns 2. -/
theorem claimC4_witness :
    (0 ≤ (2 : Int) ∧ (2 : Int) < (dsizeSum [⟨1, 5⟩] : Int) →
      ∃ r2, Seek ⟨[⟨1, 5⟩], 0, 1, 5, 0, false, 0⟩ 2 0 = .ok (2, r2)) ∧
    ((2 : Int) < 0 ∨ (dsizeSum [⟨1, 5⟩] : Int) ≤ 2 →
      ∃ e, Seek ⟨[⟨1, 5⟩], 0, 1, 5, 0, false, 0⟩ 2 0 = .error e) ∧
    (∀ v r2, Seek ⟨[⟨1, 5⟩], 0, 1, 5, 0, false, 0⟩ 2 0 = .ok (v, r2) →
      0 ≤ (2 : Int) ∧ (2 : Int) < (dsizeSum [⟨1, 5⟩] : Int) ∧ v = 2) :=
  claimC4_amended ⟨[⟨1, 5⟩], 0, 1, 5, 0, false, 0⟩ (by simp) rfl 2


/-- C3: the deserializer's per-entry emptiness check only ever inspects
the first entry's compressed-size bytes, so a serialized table whose
second entry has `CompressedSize = 0` is accepted without the
empty-chunk error — contradicting the inline comment ("Every value of
the entry must be greater than zero") and the claim. -/
theorem claimC3_bug_eval :
    ReadTableFromReadSeeker (WriteTableToWriter [⟨1, 1⟩, ⟨0, 1⟩]) =
      .ok [⟨1, 1⟩, ⟨0, 1⟩] ∧
    (GetEntry [⟨1, 1⟩, ⟨0, 1⟩] 1).CompressedSize = 0 := ⟨rfl, rfl⟩

/-- C5: the 17-byte stream holding a valid zero-entry seek table (exactly
what `NewWriter` + `Close` emit for empty input) deserializes fine, but
`NewReadSeeker` then evaluates `OffsetsByIndex(NumEntries()-1)` with
index `-1`, a Go runtime panic (modelled as `panicIndex`), instead of the
claimed successful construction with total size 0. -/
theorem claimC5_bug_eval :
    ReadTableFromReadSeeker (WriteTableToWriter []) = .ok [] ∧
    NewReadSeeker (WriteTableToWriter []) = .error .panicIndex := ⟨rfl, rfl⟩

/-- C6: on the fast path with `frameSize = 1`, a one-byte `Write` whose
single frame compresses to 3 bytes and whose sink write fails after
accepting 2 bytes returns `n = 2` — the sink's compressed byte count,
exceeding the caller's 1-byte input — instead of the claimed count of
consumed input bytes. -/
theorem claimC6_bug_eval :
    Write (fun _ => [0, 0, 0]) (fun _ => some 2) 1 initialWriter [7] 0 =
      some (2, true, ⟨[], [], 1⟩) ∧
    ([7] : List Nat).length = 1 := by
  constructor
  · rw [Write, dif_neg (by simp), dif_neg (by norm_num),
      dif_pos ⟨rfl, by simp⟩]
    rfl
  · rfl

/-- C8 counterexample: the valid one-entry table `[(0, 5)]` (fields are
in `uint32` range) serializes fine but fails to deserialize: its first
entry's compressed size is zero, so the round trip does not succeed as
the claim states for every table. -/
theorem claimC8_counterexample :
    ReadTableFromReadSeeker (WriteTableToWriter [⟨0, 5⟩]) =
      .error .emptyChunk := rfl

/-- C8 (amended): `WriteTableToWriter` followed by
`ReadTableFromReadSeeker` succeeds and preserves the entry count and
both fields of every entry, for every table with `uint32`-representable
fields whose serialized size fits the format's 4-byte size fields and
whose first entry (if any) has a non-zero `CompressedSize`. -/
theorem claimC8_amended (t : Table) (hv : TableValid t)
    (hsize : 8 * t.length + 17 < 2 ^ 32)
    (hh : ∀ e rest2, t = e :: rest2 → e.CompressedSize ≠ 0) :
    writeTableReturn t = TableSize t ∧
    ReadTableFromReadSeeker (WriteTableToWriter t) = .ok t := by
  constructor
  · rw [writeTableReturn, entriesBytes_length, TableSize]
    omega
  · exact readTable_writeTable t hv (by omega) hh

/-- C8 witness: the round trip on the one-entry table `[(1, 2)]`. -/
theorem claimC8_witness :
    writeTableReturn [⟨1, 2⟩] = TableSize [⟨1, 2⟩] ∧
    ReadTableFromReadSeeker (WriteTableToWriter [⟨1, 2⟩]) = .ok [⟨1, 2⟩] :=
  claimC8_amended [⟨1, 2⟩]
    (by
      intro e he
      simp at he
      subst he
      exact ⟨by norm_num, by norm_num⟩)
    (by norm_num)
    (by
      intro e r2 h
      injection h with h1 h2
      rw [← h1]
      decide)

/-- C9 counterexample: for the table of `2^29` entries, `8*count + 9 =
2^32 + 9` overflows the 4-byte `declaredSize` field: the field reads
back as 9, not `count*8 + 9` as the claim states for every table. -/
theorem claimC9_counterexample :
    le32at (WriteTableToWriter (List.replicate 536870912 ⟨1, 1⟩)) 4 = 9 ∧
    (List.replicate 536870912 (⟨1, 1⟩ : TableEntry)).length * 8 + 9 = 4294967305 ∧
    (9 : Nat) ≠ 4294967305 := by
  refine ⟨?_, by rw [List.length_replicate], by norm_num⟩
  have hW : WriteTableToWriter (List.replicate 536870912 (⟨1, 1⟩ : TableEntry)) =
      u32le headerMagicNumber ++ (u32le (8 * 536870912 + 9) ++
        (entriesBytes (List.replicate 536870912 ⟨1, 1⟩) ++
          (u32le 536870912 ++ ([0] ++ u32le footerMagicNumber)))) := by
    rw [WriteTableToWriter, List.length_replicate]
    simp only [List.append_assoc]
  rw [hW, le32at_skip4, le32at_u32le]

/-- C9 (amended): for every table whose `declaredSize = 8*count + 9`
fits the 4-byte header field, `Size()` is `count*8 + 17`, a successful
`WriteTableToWriter` returns exactly that many bytes, and the produced
byte sequence starts with the little-endian header magic `0x184D2A5E`
followed by `declaredSize = count*8 + 9` and ends with a 9-byte footer
holding the little-endian entry count, a zero descriptor byte, and the
little-endian footer magic `0x8F92EAB1`. -/
theorem claimC9_amended (t : Table) (hb : 8 * t.length + 9 < 2 ^ 32) :
    TableSize t = t.length * 8 + 17 ∧
    writeTableReturn t = t.length * 8 + 17 ∧
    (WriteTableToWriter t).length = TableSize t ∧
    le32at (WriteTableToWriter t) 0 = 0x184D2A5E ∧
    le32at (WriteTableToWriter t) 4 = t.length * 8 + 9 ∧
    le32at ((WriteTableToWriter t).drop ((WriteTableToWriter t).length - 9)) 0 =
      t.length ∧
    byteAt ((WriteTableToWriter t).drop ((WriteTableToWriter t).length - 9)) 4 = 0 ∧
    le32at ((WriteTableToWriter t).drop ((WriteTableToWriter t).length - 9)) 5 =
      0x8F92EAB1 :=
  writeTable_layout t (by omega)

/-- C9 witness: the layout of the serialized one-entry table `[(3, 4)]`. -/
theorem claimC9_witness :
    TableSize [⟨3, 4⟩] = 1 * 8 + 17 ∧
    writeTableReturn [⟨3, 4⟩] = 1 * 8 + 17 ∧
    (WriteTableToWriter [⟨3, 4⟩]).length = TableSize [⟨3, 4⟩] ∧
    le32at (WriteTableToWriter [⟨3, 4⟩]) 0 = 0x184D2A5E ∧
    le32at (WriteTableToWriter [⟨3, 4⟩]) 4 = 1 * 8 + 9 ∧
    le32at ((WriteTableToWriter [⟨3, 4⟩]).drop
      ((WriteTableToWriter [⟨3, 4⟩]).length - 9)) 0 = 1 ∧
    byteAt ((WriteTableToWriter [⟨3, 4⟩]).drop
      ((WriteTableToWriter [⟨3, 4⟩]).length - 9)) 4 = 0 ∧
    le32at ((WriteTableToWriter [⟨3, 4⟩]).drop
      ((WriteTableToWriter [⟨3, 4⟩]).length - 9)) 5 = 0x8F92EAB1 :=
  claimC9_amended [⟨3, 4⟩] (by norm_num)


/-- C1 counterexample: with frame size `F = 2^32` (a legal `int` frame
size in Go) and `2^32` input bytes, the single recorded entry has
`DecompressedSize = uint32(2^32) = 0`, so the recorded sizes do not sum
to the input length and the claimed partition
`[F, ..., remainder]` fails. -/
theorem claimC1_counterexample :
    WriteAll (fun _ => []) okSink 4294967296 initialWriter
        [List.replicate 4294967296 0] = some (false, ⟨[], [⟨0, 0⟩], 1⟩) ∧
    Close (fun _ => []) okSink ⟨[], [⟨0, 0⟩], 1⟩ = (false, ⟨[], [⟨0, 0⟩], 4⟩) ∧
    dsizeSum [(⟨0, 0⟩ : TableEntry)] = 0 ∧
    totalLen [List.replicate 4294967296 0] = 4294967296 := by
  have hdrop : List.drop 4294967296 (List.replicate 4294967296 (0 : Nat)) = [] := by
    apply List.eq_nil_of_length_eq_zero
    rw [List.length_drop, List.length_replicate]
  have htake : (List.take 4294967296 (List.replicate 4294967296 (0 : Nat))).length =
      4294967296 := by
    rw [List.length_take, List.length_replicate, Nat.min_self]
  have hw : Write (fun _ => ([] : List Nat)) okSink 4294967296 initialWriter
      (List.replicate 4294967296 0) 0 = some (0, false, ⟨[], [⟨0, 0⟩], 1⟩) := by
    rw [Write]
    rw [dif_neg (by
      intro hcon
      have := congrArg List.length hcon
      rw [List.length_replicate] at this
      exact absurd this (by norm_num))]
    rw [dif_neg (by norm_num : ¬ (4294967296 : Nat) = 0)]
    rw [dif_pos ⟨rfl, by rw [List.length_replicate]⟩]
    simp only [okSink]
    rw [hdrop, htake]
    rw [Write]
    rw [dif_pos rfl]
    rfl
  refine ⟨?_, rfl, rfl, by rw [totalLen, List.map_cons, List.map_nil,
    List.length_replicate, List.sum_cons, List.sum_nil, Nat.add_zero]⟩
  rw [WriteAll, hw]
  rfl


/-- C1 (amended): for every frame size `1 <= F < 2^32`, after any
sequence of `Write` calls and a successful `Close` with an
always-succeeding sink, the recorded `DecompressedSize` fields are
exactly `totalInput / F` copies of `F` followed by the remainder
`totalInput % F` (omitted when zero), and they sum to the total number
of input bytes. -/
theorem claimC1_amended (frameSize : Nat) (h1 : 1 ≤ frameSize)
    (h2 : frameSize < 2 ^ 32) (enc : List Nat → List Nat)
    (datas : List (List Nat)) :
    ∃ s s2,
      WriteAll enc okSink frameSize initialWriter datas = some (false, s) ∧
      Close enc okSink s = (false, s2) ∧
      s2.seekTable.map (fun e => e.DecompressedSize) =
        List.replicate (totalLen datas / frameSize) frameSize ++
          (if totalLen datas % frameSize = 0 then []
           else [totalLen datas % frameSize]) ∧
      dsizeSum s2.seekTable = totalLen datas := by
  have hF : 0 < frameSize := h1
  obtain ⟨s, es, heq, htab, hmap, hbl⟩ :=
    WriteAll_ok datas enc frameSize initialWriter hF
      (by simp only [initialWriter]; simpa using hF)
  obtain ⟨calls2, hclose⟩ := Close_ok enc s
  simp only [initialWriter, List.length_nil, Nat.zero_add, List.nil_append]
    at htab hmap hbl
  have hFm : frameSize % 2 ^ 32 = frameSize := Nat.mod_eq_of_lt h2
  rw [hFm] at hmap
  have hrlt : totalLen datas % frameSize < frameSize := Nat.mod_lt _ hF
  have hmain : (List.map (fun e => e.DecompressedSize) (s.seekTable ++
      (if s.frameBuffer.length = 0 then []
       else [⟨(enc s.frameBuffer).length % 2 ^ 32, s.frameBuffer.length % 2 ^ 32⟩]))) =
      List.replicate (totalLen datas / frameSize) frameSize ++
        (if totalLen datas % frameSize = 0 then []
         else [totalLen datas % frameSize]) := by
    rw [List.map_append, htab, hmap, hbl]
    by_cases hr : totalLen datas % frameSize = 0
    · rw [if_pos hr, if_pos hr, List.map_nil]
    · rw [if_neg hr, if_neg hr]
      have hd0 : totalLen datas % frameSize % 2 ^ 32 = totalLen datas % frameSize :=
        Nat.mod_eq_of_lt (by omega)
      simp only [List.map_cons, List.map_nil]
      rw [hd0]
  refine ⟨s, _, heq, hclose, hmain, ?_⟩
  rw [dsizeSum_eq_map_sum]
  simp only []
  rw [hmain, List.sum_append, List.sum_replicate, smul_eq_mul]
  by_cases hr : totalLen datas % frameSize = 0
  · rw [if_pos hr, List.sum_nil, Nat.add_zero, Nat.mul_comm]
    conv_rhs => rw [← Nat.div_add_mod (totalLen datas) frameSize]
    rw [hr, Nat.add_zero]
  · rw [if_neg hr, List.sum_cons, List.sum_nil, Nat.add_zero, Nat.mul_comm]
    exact Nat.div_add_mod (totalLen datas) frameSize

/-- C1 witness: frame size 2 with one 3-byte `Write` call. -/
theorem claimC1_witness :
    ∃ s s2,
      WriteAll (fun _ => []) okSink 2 initialWriter [[9, 9, 9]] = some (false, s) ∧
      Close (fun _ => []) okSink s = (false, s2) ∧
      s2.seekTable.map (fun e => e.DecompressedSize) =
        List.replicate (totalLen [[9, 9, 9]] / 2) 2 ++
          (if totalLen [[9, 9, 9]] % 2 = 0 then []
           else [totalLen [[9, 9, 9]] % 2]) ∧
      dsizeSum s2.seekTable = totalLen [[9, 9, 9]] :=
  claimC1_amended 2 (by norm_num) (by norm_num) (fun _ => []) [[9, 9, 9]]

end Szstd
